import Mathlib

/-!
Verification development for the VocalLens streaming-transcript
reconciliation engine and alignment scorer.

Strings are modelled as `List Char` (JS strings over the ASCII range that
the algorithms manipulate).  Numeric confidences are `ℚ`; JS `null` /
`undefined` are `Option.none`.  Every definition is a direct translation of
the corresponding function of the source (src/src/hooks/useASR.ts and
src/src/lib/scoring.ts); comments name the source symbol.
-/

namespace VocalLens

/-! ## Character primitives -/

/-- ASCII lower-casing, as `String.prototype.toLowerCase` acts on ASCII. -/
def lowChar (c : Char) : Char :=
  if 'A' ≤ c ∧ c ≤ 'Z' then Char.ofNat (c.toNat + 32) else c

/-- JS `\s` on the ASCII range: space, tab, LF, VT, FF, CR. -/
def isWsChar (c : Char) : Bool :=
  c == ' ' || c == '\t' || c == '\n' || c == Char.ofNat 11 || c == Char.ofNat 12 || c == '\r'

/-- A lower-case letter or digit (the `[a-z0-9]` class of `normalizeText`). -/
def isLowerAlnum (c : Char) : Bool :=
  ('a' ≤ c && c ≤ 'z') || ('0' ≤ c && c ≤ '9')

/-- One step of `.replace(/[^a-z0-9\s]/gi, " ")` on an already lower-cased
character: letters, digits and whitespace survive, anything else becomes a
space. -/
def replChar (c : Char) : Char :=
  if isLowerAlnum c || isWsChar c then c else ' '

/-! ## List-level string operations -/

/-- `String.prototype.startsWith`: `startsWithL s p` says `s` starts with `p`. -/
def startsWithL : List Char → List Char → Bool
  | _, [] => true
  | [], _ :: _ => false
  | c :: cs, p :: ps => c == p && startsWithL cs ps

/-- `String.prototype.includes`: substring containment. -/
def includesL (hay needle : List Char) : Bool :=
  if startsWithL hay needle then true else
  match hay with
  | [] => false
  | _ :: rest => includesL rest needle

/-- `String.prototype.slice(-k)`: the last `k` characters (whole string if
`k` exceeds the length). -/
def takeLast (k : Nat) (l : List Char) : List Char :=
  l.drop (l.length - k)

/-- Collapsing step `.replace(/\s+/g, " ")`, written as a left-to-right
scan: `inWs` records whether the previous character belonged to a
whitespace run, so each maximal run contributes exactly one space. -/
def collapseWsAux : Bool → List Char → List Char
  | _, [] => []
  | inWs, c :: rest =>
    if isWsChar c then
      if inWs then collapseWsAux true rest else ' ' :: collapseWsAux true rest
    else c :: collapseWsAux false rest

/-- `.replace(/\s+/g, " ")`: each maximal whitespace run becomes a single
space. -/
def collapseWs (l : List Char) : List Char :=
  collapseWsAux false l

/-- `String.prototype.trim` (both ends, JS whitespace). -/
def trimL (s : List Char) : List Char :=
  ((s.dropWhile isWsChar).reverse.dropWhile isWsChar).reverse

/-- `normalizeText` of useASR.ts: lower-case, turn every character outside
`[a-z0-9\s]` into a space, collapse whitespace runs to single spaces, trim. -/
def normalizeText (s : List Char) : List Char :=
  trimL (collapseWs ((s.map lowChar).map replChar))

/-- `String.prototype.split(" ")`: split at every single space character. -/
def splitSpace : List Char → List (List Char)
  | [] => [[]]
  | c :: cs =>
    if c == ' ' then [] :: splitSpace cs
    else
      match splitSpace cs with
      | [] => [[c]]
      | w :: ws => (c :: w) :: ws

/-- `tokenize` of useASR.ts: split the normalized text on spaces
(empty normalized text gives no tokens). -/
def tokenize (s : List Char) : List (List Char) :=
  let normalized := normalizeText s
  if normalized.isEmpty then [] else splitSpace normalized

/-! ## mergeTranscript (useASR.ts) -/

/-- `containsNormalized` of useASR.ts. -/
def containsNormalized (container content : List Char) : Bool :=
  let a := normalizeText container
  let b := normalizeText content
  if a.isEmpty || b.isEmpty then false else includesL a b

/-- The decreasing-overlap scan of `mergeTranscript`: the largest `i ≤ k`
with `lowerA.slice(-i) == lowerB.slice(0, i)`, else 0. -/
def findOverlapC (a b : List Char) : Nat → Nat
  | 0 => 0
  | k + 1 =>
    if a.drop (a.length - (k + 1)) = b.take (k + 1) then k + 1
    else findOverlapC a b k

/-- `mergeTranscript` of useASR.ts. -/
def mergeTranscript (prev next : List Char) : List Char :=
  let a := trimL prev
  let b := trimL next
  if a.isEmpty then b else
  if b.isEmpty then a else
  if a = b then a else
  if containsNormalized a b then a else
  if containsNormalized b a then b else
  if startsWithL b a then b else
  if startsWithL a b then a else
  let lowerA := a.map lowChar
  let lowerB := b.map lowChar
  let overlap := findOverlapC lowerA lowerB (min lowerA.length lowerB.length)
  if overlap > 0 then a ++ b.drop overlap else a ++ ' ' :: b

/-! ## Word-confidence merge (useASR.ts) -/

/-- JS `Math.max` on two rationals.  (`none` models JS `null`/`undefined`/
non-number/NaN confidence inputs, which the `typeof value !== "number" ||
Number.isNaN(value)` guard of `normalizeConfidence` sends to `null`.) -/
def maxQ (a b : ℚ) : ℚ :=
  if a < b then b else a

/-- JS `Math.min` on two rationals. -/
def minQ (a b : ℚ) : ℚ :=
  if b < a then b else a

/-- `normalizeConfidence` (identical in useASR.ts and scoring.ts): clamp to
`[0, 1]`, after dividing by 100 any value above 1. -/
def normalizeConfidence (value : Option ℚ) : Option ℚ :=
  match value with
  | none => none
  | some v => if v > 1 then some (maxQ 0 (minQ 1 (v / 100))) else some (maxQ 0 (minQ 1 v))

/-- `alignConfidences` of useASR.ts: truncate or right-pad with `null` to the
requested length. -/
def alignConfidences (len : Nat) (confidences : List (Option ℚ)) : List (Option ℚ) :=
  if confidences.length = len then confidences
  else if confidences.length > len then confidences.take len
  else confidences ++ List.replicate (len - confidences.length) none

/-- `isWordArrayEqual` of useASR.ts (length check plus element-wise equality
is list equality). -/
def isWordArrayEqual (a b : List (List Char)) : Bool :=
  a == b

/-- `containsWordSequence` of useASR.ts: `content` occurs as a contiguous run
of whole words inside `container`. -/
def containsWordSequence (container content : List (List Char)) : Bool :=
  if container.isEmpty || content.isEmpty || content.length > container.length then false
  else
    (List.range (container.length - content.length + 1)).any fun start =>
      isWordArrayEqual ((container.drop start).take content.length) content

/-- One entry of the `{word, confidence}` arrays produced by
`extractWordConfidences`. -/
structure WordConf where
  word : List Char
  confidence : Option ℚ
  deriving DecidableEq, Repr

/-- The decreasing-overlap scan of `mergeWordConfidences`, over word arrays:
the largest `size ≤ k` with `prevWords.slice(-size)` equal to
`nextWords.slice(0, size)`, else 0. -/
def findOverlapW (a b : List (List Char)) : Nat → Nat
  | 0 => 0
  | k + 1 =>
    if isWordArrayEqual (a.drop (a.length - (k + 1))) (b.take (k + 1)) then k + 1
    else findOverlapW a b k

/-- `mergeWordConfidences` of useASR.ts. -/
def mergeWordConfidences (previousTranscript : List Char)
    (previousConfidences : List (Option ℚ)) (incoming : List WordConf) :
    List (Option ℚ) :=
  let prevWords := tokenize previousTranscript
  let prevConfs := alignConfidences prevWords.length previousConfidences
  let nextWords := incoming.map (·.word)
  let nextConfs := incoming.map (·.confidence)
  if prevWords.isEmpty then nextConfs else
  if nextWords.isEmpty then prevConfs else
  if containsWordSequence prevWords nextWords then prevConfs else
  if containsWordSequence nextWords prevWords then nextConfs else
  let overlap := findOverlapW prevWords nextWords (min prevWords.length nextWords.length)
  if overlap > 0 then prevConfs ++ nextConfs.drop overlap
  else prevConfs ++ nextConfs

/-! ## Final-event guards (useASR.ts) -/

/-- `isSameNormalized` of useASR.ts. -/
def isSameNormalized (a b : List Char) : Bool :=
  normalizeText a == normalizeText b

/-- First-occurrence de-duplication with the set of already-seen elements,
exactly how a JS `Set` is populated by insertion. -/
def dedupAux : List (List Char) → List (List Char) → List (List Char)
  | [], _ => []
  | w :: ws, seen => if seen.contains w then dedupAux ws seen else w :: dedupAux ws (w :: seen)

/-- `Array.from(new Set(xs))`: the distinct elements in first-occurrence
order. -/
def dedupFirst (l : List (List Char)) : List (List Char) :=
  dedupAux l []

/-- `wordSimilarity` of useASR.ts: Jaccard-style overlap of the distinct
word sets, `common / max(|setA|, |setB|)`. -/
def wordSimilarity (a b : List Char) : ℚ :=
  let wa := (splitSpace a).filter (fun w => !w.isEmpty)
  let wb := (splitSpace b).filter (fun w => !w.isEmpty)
  if wa.isEmpty || wb.isEmpty then 0 else
  let setA := dedupFirst wa
  let setB := dedupFirst wb
  let common := (setA.filter (fun w => setB.contains w)).length
  (common : ℚ) / (max setA.length setB.length : ℚ)

/-- `isLoopingFinal` of useASR.ts: an incoming final with at least 8 words is
rejected when it is ≥ 0.9-similar to some recently accepted final (the code
scans the history backwards; the boolean is the same existential). -/
def isLoopingFinal (incoming : List Char) (recent : List (List Char)) : Bool :=
  let n := normalizeText incoming
  if n.isEmpty then false else
  let words := (splitSpace n).filter (fun w => !w.isEmpty)
  if words.length < 8 then false else
  recent.reverse.any fun r => decide (wordSimilarity n r ≥ 9 / 10)

/-- `isLikelyRepeatedSegment` of useASR.ts. -/
def isLikelyRepeatedSegment (existing incoming : List Char) : Bool :=
  let current := normalizeText existing
  let next := normalizeText incoming
  if current.isEmpty || next.isEmpty then false else
  if includesL current next then true else
  let tl := takeLast (max 240 (next.length * 2)) current
  if includesL tl next then true else
  let nextWords := dedupFirst ((splitSpace next).filter (fun w => !w.isEmpty))
  let tailWords := dedupFirst ((splitSpace tl).filter (fun w => !w.isEmpty))
  if nextWords.length < 6 then false else
  let common := (nextWords.filter (fun w => tailWords.contains w)).length
  decide ((common : ℚ) / (nextWords.length : ℚ) ≥ 85 / 100)

/-- `pushRecentFinal` of useASR.ts: append the normalized final, keep at most
12 entries. -/
def pushRecentFinal (target : List (List Char)) (text : List Char) : List (List Char) :=
  let n := normalizeText text
  if n.isEmpty then target else
  let t := target ++ [n]
  if t.length > 12 then t.drop 1 else t

/-! ## The final-branch of `ws.onmessage` (useASR.ts, lines 705-761) -/

/-- One element of `result.words` (`ASRWord` of useASR.ts). -/
structure ASRWord where
  word : Option (List Char)
  text : Option (List Char)
  confidence : Option ℚ

/-- `extractWordConfidences` of useASR.ts. -/
def extractWordConfidences (words : Option (List ASRWord)) (fallbackText : List Char) :
    List WordConf :=
  match words with
  | none => (tokenize fallbackText).map fun w => ⟨w, none⟩
  | some ws =>
    if ws.isEmpty then (tokenize fallbackText).map fun w => ⟨w, none⟩ else
    let output := ws.foldl (fun acc item =>
      let tokenText := item.word.getD (item.text.getD [])
      let parts := tokenize tokenText
      let confidence := normalizeConfidence item.confidence
      acc ++ parts.map fun p => ⟨p, confidence⟩) []
    if output.length > 0 then output
    else (tokenize fallbackText).map fun w => ⟨w, none⟩

/-- The mutable refs the final branch of `ws.onmessage` reads and writes
(`transcriptRef`, `wordConfidencesRef`, `partialRef`, `lastPartialRef`,
`lastFinalRef`, `recentFinalsRef`, `eofSentRef`, `pausedRef`).  The React
`set*` calls mirror these refs for display and are not separate state. -/
structure ASRState where
  transcript : List Char
  wordConfs : List (Option ℚ)
  pending : List Char
  lastPending : List Char
  lastFinal : List Char
  recentFinals : List (List Char)
  eofSent : Bool
  paused : Bool

/-- The `result.is_final` branch of `ws.onmessage` (useASR.ts lines 705-761):
empty-final clearing, the four repeat guards, then the merge. -/
def onFinalEvent (s : ASRState) (text : List Char) (words : Option (List ASRWord)) :
    ASRState :=
  if s.paused then s else
  let finalText := trimL text
  if finalText.isEmpty then { s with pending := [] } else
  if s.eofSent then s else
  if isSameNormalized finalText s.lastFinal then s else
  if isLoopingFinal finalText s.recentFinals then s else
  if isLikelyRepeatedSegment s.transcript finalText then s else
  let tl := takeLast 400 (normalizeText s.transcript)
  if !tl.isEmpty && decide (wordSimilarity tl (normalizeText finalText) > 92 / 100) then s else
  let finalWords := extractWordConfidences words finalText
  let merged := mergeTranscript s.transcript finalText
  let mergedConfidences := mergeWordConfidences s.transcript s.wordConfs finalWords
  { s with
    lastFinal := finalText
    recentFinals := pushRecentFinal s.recentFinals finalText
    lastPending := []
    transcript := merged
    wordConfs := mergedConfidences
    pending := [] }

/-! ## scoring.ts — tokenizer

The repository carries two revisions of scoring.ts.  Their tokenizer, DP
matrix and backtrace are textually identical; the embedding below follows
the later revision (simple `matches / spokenTotal` accuracy), which is the
one the spec designates canonical. -/

/-- A character kept by the scoring tokenizer's `[^\w\s']` replacement:
`\w` (letters, digits, underscore) or an apostrophe. -/
def scKeep (c : Char) : Bool :=
  ('a' ≤ c && c ≤ 'z') || ('A' ≤ c && c ≤ 'Z') || ('0' ≤ c && c ≤ '9') ||
    c == '_' || c == '\''

/-- One step of `.replace(/[^\w\s']/g, " ")`. -/
def scRepl (c : Char) : Char :=
  if scKeep c || isWsChar c then c else ' '

/-- `tokenize` of scoring.ts: lower-case, replace everything outside
`[\w\s']` by a space, split on whitespace, drop empty pieces.  Splitting on
`/\s+/` is splitting the run-collapsed string at its single spaces. -/
def tokenizeSc (s : List Char) : List (List Char) :=
  (splitSpace (collapseWs ((s.map lowChar).map scRepl))).filter fun w => !w.isEmpty

/-! ## scoring.ts — diffWords -/

/-- Token classification of scoring.ts (`"match" | "miss" | "extra"`). -/
inductive Status where
  | mat | miss | extra
  deriving DecidableEq, Repr

/-- `TokenDiff` of scoring.ts. -/
structure TokenDiff where
  word : List Char
  status : Status
  confidence : Option ℚ
  deriving DecidableEq, Repr

/-- `Mismatch` of scoring.ts (`{ref?, hyp?}`). -/
structure MismatchSc where
  ref : Option (List Char)
  hyp : Option (List Char)
  deriving DecidableEq, Repr

/-- Edit operation of the backtrace (`"match" | "sub" | "ins" | "del"`). -/
inductive Op where
  | mat | sub | ins | del
  deriving DecidableEq, Repr

/-- The Levenshtein matrix `dp` of `diffWords`: `dpF r h i j` is `dp[i][j]`
(border rows `dp[i][0] = i`, `dp[0][j] = j`, inner cells the minimum of
vertical, horizontal and diagonal steps, with the diagonal costing 0 on
equal tokens). -/
def dpF (r h : List (List Char)) : Nat → Nat → Nat
  | 0, j => j
  | i + 1, 0 => i + 1
  | i + 1, j + 1 =>
    let cost := if r.getD i [] = h.getD j [] then 0 else 1
    min (dpF r h i (j + 1) + 1) (min (dpF r h (i + 1) j + 1) (dpF r h i j + cost))
termination_by i j => i + j
decreasing_by all_goals omega

/-- The backtrace loop of `diffWords`, producing the operations in reverse
order (they are `reverse`d afterwards, as in the source).  At the matrix
borders the source's guard chain always resolves the same way: with `i = 0`
the two diagonal guards fail and the insertion guard `dp[0][j] == dp[0][j-1]
+ 1` holds definitionally, and with `j = 0` all three guards fail, leaving
the deletion branch. -/
def backAux (r h : List (List Char)) : Nat → Nat → List Op
  | 0, 0 => []
  | 0, j + 1 => Op.ins :: backAux r h 0 j
  | i + 1, 0 => Op.del :: backAux r h i 0
  | i + 1, j + 1 =>
    if r.getD i [] = h.getD j [] ∧ dpF r h (i + 1) (j + 1) = dpF r h i j then
      Op.mat :: backAux r h i j
    else if dpF r h (i + 1) (j + 1) = dpF r h i j + 1 then
      Op.sub :: backAux r h i j
    else if dpF r h (i + 1) (j + 1) = dpF r h (i + 1) j + 1 then
      Op.ins :: backAux r h (i + 1) j
    else
      Op.del :: backAux r h i (j + 1)
termination_by i j => i + j
decreasing_by all_goals omega

/-- The forward operation sequence of `diffWords` on two token lists. -/
def diffOps (r h : List (List Char)) : List Op :=
  (backAux r h r.length h.length).reverse

/-- Accumulated output of the operation walk of `diffWords` (its `tokens`,
`mismatches`, `matches`, `misses`, `extras` locals). -/
structure DiffAcc where
  tokens : List TokenDiff
  mismatches : List MismatchSc
  nMatches : Nat
  nMisses : Nat
  nExtras : Nat
  deriving Repr

/-- The left-to-right walk of `diffWords` over the operation sequence,
consuming reference tokens at `ri` and hypothesis tokens at `hi`.  Reading
`hypothesisConfidences[hi]` beyond the array is JS `undefined`, i.e.
`none`. -/
def walkOps (r h : List (List Char)) (cs : List (Option ℚ)) :
    List Op → Nat → Nat → DiffAcc
  | [], _, _ => ⟨[], [], 0, 0, 0⟩
  | Op.mat :: rest, ri, hi =>
    let w := h.getD hi []
    let confidence := normalizeConfidence (cs.getD hi none)
    let acc := walkOps r h cs rest (ri + 1) (hi + 1)
    ⟨⟨w, Status.mat, confidence⟩ :: acc.tokens, acc.mismatches,
      acc.nMatches + 1, acc.nMisses, acc.nExtras⟩
  | Op.sub :: rest, ri, hi =>
    let w := h.getD hi []
    let acc := walkOps r h cs rest (ri + 1) (hi + 1)
    ⟨⟨w, Status.miss, none⟩ :: acc.tokens, ⟨some (r.getD ri []), some w⟩ :: acc.mismatches,
      acc.nMatches, acc.nMisses + 1, acc.nExtras⟩
  | Op.ins :: rest, ri, hi =>
    let w := h.getD hi []
    let acc := walkOps r h cs rest ri (hi + 1)
    ⟨⟨w, Status.extra, none⟩ :: acc.tokens, ⟨none, some w⟩ :: acc.mismatches,
      acc.nMatches, acc.nMisses, acc.nExtras + 1⟩
  | Op.del :: rest, ri, hi =>
    let acc := walkOps r h cs rest (ri + 1) hi
    ⟨acc.tokens, ⟨some (r.getD ri []), none⟩ :: acc.mismatches,
      acc.nMatches, acc.nMisses, acc.nExtras⟩

/-- Result record of `diffWords` (second revision): classified tokens, the
0-100 accuracy, and the mismatch list. -/
structure DiffResult where
  tokens : List TokenDiff
  accuracy : ℚ
  mismatches : List MismatchSc
  deriving Repr

/-- `diffWords` of scoring.ts (second revision): tokenize, fill the edit
matrix, backtrace, walk the operations, and score
`matches / (matches + misses + extras) * 100` (0 when nothing was spoken). -/
def diffWords (reference hypothesis : List Char)
    (hypothesisConfidences : List (Option ℚ)) : DiffResult :=
  let ref := tokenizeSc reference
  let hyp := tokenizeSc hypothesis
  let ops := diffOps ref hyp
  let acc := walkOps ref hyp hypothesisConfidences ops 0 0
  let spokenTotal := acc.nMatches + acc.nMisses + acc.nExtras
  let accuracy : ℚ :=
    if spokenTotal > 0 then (acc.nMatches : ℚ) / (spokenTotal : ℚ) * 100 else 0
  ⟨acc.tokens, accuracy, acc.mismatches⟩

/-! ## scoring.ts — pickPhonemeHint (second revision) -/

/-- Shorthand for writing string literals as character lists. -/
def str (s : String) : List Char :=
  s.data

/-- One entry of the `phonemeRules` table: the `ref`/`hyp` regexes (all of
the form `/^x/` or `/x$/`, i.e. anchored literal tests) and the tip text. -/
structure PhonRule where
  refTest : List Char → Bool
  hypTest : List Char → Bool
  tip : List Char

/-- `String.prototype.endsWith`, for the `/ing$/`-style rules. -/
def endsWithL (s p : List Char) : Bool :=
  startsWithL s.reverse p.reverse

/-- `phonemeRules` of scoring.ts. -/
def phonemeRules : List PhonRule :=
  [ ⟨fun r => startsWithL r (str "th"), fun h => startsWithL h (str "d"),
      str "Possible /th/ -> /d/ substitution; place tongue lightly behind upper teeth."⟩,
    ⟨fun r => startsWithL r (str "v"), fun h => startsWithL h (str "w"),
      str "Possible /v/ -> /w/; touch upper teeth to lower lip and voice the sound."⟩,
    ⟨fun r => startsWithL r (str "l"), fun h => startsWithL h (str "r"),
      str "Possible /l/ -> /r/; keep tongue tip on alveolar ridge to avoid retroflex /r/."⟩,
    ⟨fun r => endsWithL r (str "ing"), fun h => endsWithL h (str "in"),
      str "Possible /ng/ -> /n/; lift tongue back to seal the soft palate for /ng/."⟩ ]

/-- The fallback string of the second revision's `pickPhonemeHint`. -/
def genericEncouragement : List Char :=
  str "Overall, your pronunciation is quite good. Keep up the great work and stay consistent."

/-- The inner rule scan of `pickPhonemeHint`: the tip of the first rule in
table order matching the given ref/hyp pair. -/
def findRuleFor (r h : List Char) : Option (List Char) :=
  (phonemeRules.find? fun rule => rule.refTest r && rule.hypTest h).map (·.tip)

/-- `pickPhonemeHint` of scoring.ts (second revision): scan mismatches in
order, skip entries missing a ref or hyp word (JS falsiness: absent or
empty), return the first rule tip found, else the generic encouragement. -/
def pickPhonemeHint : List MismatchSc → List Char
  | [] => genericEncouragement
  | m :: rest =>
    match m.ref, m.hyp with
    | some r, some h =>
      if r.isEmpty || h.isEmpty then pickPhonemeHint rest
      else
        match findRuleFor r h with
        | some tip => tip
        | none => pickPhonemeHint rest
    | _, _ => pickPhonemeHint rest

/-- Modelled from the amended claim's words, for comparison with the code:
the hint is determined by the FIRST mismatch (in list order) whose ref and
hyp are both present and non-empty and that matches some rule, taking that
mismatch's first matching rule in table order; when no mismatch matches any
rule — in particular when the list is empty — the generic encouragement
string is returned. -/
def pickPhonemeHintSpec (mismatches : List MismatchSc) : List Char :=
  (mismatches.findSome? fun m =>
    match m.ref, m.hyp with
    | some r, some h => if r.isEmpty || h.isEmpty then none else findRuleFor r h
    | _, _ => none).getD genericEncouragement

/-- The reconciler state at session start: every ref empty / false. -/
def initASRState : ASRState :=
  ⟨[], [], [], [], [], [], false, false⟩


/-- The walk output of `diffWords` on given inputs (its local `acc`). -/
def diffAcc (reference hypothesis : List Char) (cs : List (Option ℚ)) : DiffAcc :=
  walkOps (tokenizeSc reference) (tokenizeSc hypothesis) cs
    (diffOps (tokenizeSc reference) (tokenizeSc hypothesis)) 0 0

/-- Whether an operation consumes a reference token in the walk. -/
def opRef : Op → Bool
  | Op.ins => false
  | _ => true

/-- Whether an operation consumes a hypothesis token in the walk. -/
def opHyp : Op → Bool
  | Op.del => false
  | _ => true

/-! ## Characterizing normalizeText: non-whitespace runs -/

/-- Maximal non-whitespace runs of a character list, together with a flag
telling whether the list begins inside a run (structural, so proofs go by
plain induction). -/
def nwRunsA : List Char → List (List Char) × Bool
  | [] => ([], false)
  | c :: cs =>
    let p := nwRunsA cs
    if isWsChar c then (p.1, false)
    else
      match p.1, p.2 with
      | r :: rest, true => ((c :: r) :: rest, true)
      | rs, _ => ([c] :: rs, true)

/-- The maximal non-whitespace runs of a character list. -/
def nwRuns (l : List Char) : List (List Char) :=
  (nwRunsA l).1

/-- Whether the list starts with a non-whitespace character. -/
def headRun (l : List Char) : Bool :=
  (nwRunsA l).2

/-- Joining runs with single spaces. -/
def intercalateSp : List (List Char) → List Char
  | [] => []
  | [w] => w
  | w :: ws => w ++ ' ' :: intercalateSp ws

/-- Dropping trailing whitespace (the second half of `trim`). -/
def rdropWs (l : List Char) : List Char :=
  (l.reverse.dropWhile isWsChar).reverse

/-- The leading space that survives `rdropWs` after collapsing, when the
input starts a whitespace run in state `inWs = false` and a later run
exists. -/
def leadSp (b : Bool) (l : List Char) : List Char :=
  match l with
  | [] => []
  | c :: _ => if isWsChar c ∧ b = false ∧ nwRuns l ≠ [] then [' '] else []

/-! # Helper lemmas -/

theorem maxQ_le {a b c : ℚ} (h1 : a ≤ c) (h2 : b ≤ c) : maxQ a b ≤ c := by
  unfold maxQ; split <;> assumption

theorem le_maxQ_left (a b : ℚ) : a ≤ maxQ a b := by
  unfold maxQ; split <;> [exact le_of_lt (by assumption); exact le_refl a]

theorem minQ_le_left (a b : ℚ) : minQ a b ≤ a := by
  unfold minQ; split <;> [exact le_of_lt (by assumption); exact le_refl a]

theorem maxQ_eq_right {a b : ℚ} (h : a ≤ b) : maxQ a b = b := by
  unfold maxQ; split
  · rfl
  · exact le_antisymm h (not_lt.mp (by assumption))

theorem minQ_eq_right {a b : ℚ} (h : b ≤ a) : minQ a b = b := by
  unfold minQ; split
  · rfl
  · exact le_antisymm (not_lt.mp (by assumption)) h

/-! # Claim theorems -/

/-- C1: the claim asserts that after each merge step the word-confidence
array length equals the token count of the merged transcript.  The code
violates this: with committed transcript `"hello"` (confidence array
`[null]`) and incoming final `"lower"` (word list `[{lower, null}]`),
`mergeTranscript` splices on the character-level overlap `"lo"`, producing
the single-token text `"hellower"`, while `mergeWordConfidences` finds no
word-level overlap and concatenates, producing 2 confidences. -/
theorem C1_confidence_length_divergence :
    (mergeWordConfidences (str "hello") [none] [⟨str "lower", none⟩]).length = 2 ∧
    (tokenize (mergeTranscript (str "hello") (str "lower"))).length = 1 ∧
    mergeTranscript (str "hello") (str "lower") = str "hellower" := by
  decide

/-- C4 counterexample: the claim `mergeTranscript(text, text) == text` for
every non-empty `text` fails for text carrying leading whitespace, because
the merge trims first: `mergeTranscript(" hi", " hi") == "hi" ≠ " hi"`. -/
theorem C4_counterexample :
    mergeTranscript (str " hi") (str " hi") = str "hi" ∧ str "hi" ≠ str " hi" := by
  decide

/-- C4 (amended): for every non-empty `text` without leading or trailing
whitespace (`trim(text) == text`), `mergeTranscript(text, text) == text`. -/
theorem C4_merge_self_identity (t : List Char) (htrim : trimL t = t) (hne : t ≠ []) :
    mergeTranscript t t = t := by
  unfold mergeTranscript
  simp only [htrim]
  simp [List.isEmpty_iff, hne]

/-- C4 witness: the amended statement at `"hi"`. -/
theorem C4_witness : mergeTranscript (str "hi") (str "hi") = str "hi" :=
  C4_merge_self_identity (str "hi") (by decide) (by decide)

/-- C8 counterexample: the claim says `pickPhonemeHint` returns the tip of
the first rule in the rule table matching some mismatch, the generic
encouragement only for a non-empty mismatch list with no rule match, and
`null` for an empty list.  The code (second revision) instead returns the
generic encouragement for the empty list (it never returns null), and it
scans mismatch-first, not rule-first: on
`[{vet, wet}, {the, dog}]` it returns the `/v/ -> /w/` tip of rule 2 (the
first mismatch's match) even though rule 1 (`/th/ -> /d/`) matches the
second mismatch and comes first in the table. -/
theorem C8_counterexample :
    pickPhonemeHint [] = genericEncouragement ∧
    pickPhonemeHint [⟨some (str "vet"), some (str "wet")⟩, ⟨some (str "the"), some (str "dog")⟩] =
      str "Possible /v/ -> /w/; touch upper teeth to lower lip and voice the sound." ∧
    str "Possible /v/ -> /w/; touch upper teeth to lower lip and voice the sound." ≠
      str "Possible /th/ -> /d/ substitution; place tongue lightly behind upper teeth." := by
  refine ⟨rfl, by decide, by decide⟩

/-- C8 (amended): `pickPhonemeHint` scans mismatches in order; for the first
mismatch with both words present and non-empty that matches some rule it
returns that mismatch's first matching rule's tip; otherwise — including for
an empty mismatch list — it returns the generic encouragement string (never
null). -/
theorem C8_hint_first_mismatch (ms : List MismatchSc) :
    pickPhonemeHint ms = pickPhonemeHintSpec ms := by
  induction ms with
  | nil => rfl
  | cons m rest ih =>
    unfold pickPhonemeHint pickPhonemeHintSpec
    unfold pickPhonemeHintSpec at ih
    cases hr : m.ref with
    | none => simpa [List.findSome?_cons, hr] using ih
    | some r =>
      cases hh : m.hyp with
      | none => simpa [List.findSome?_cons, hr, hh] using ih
      | some h =>
        by_cases he : r.isEmpty || h.isEmpty
        · simp only [hr, hh, he, if_true, List.findSome?_cons]
          simpa [he] using ih
        · simp only [hr, hh, he, if_false, List.findSome?_cons]
          cases hf : findRuleFor r h with
          | none => simpa [he, hf] using ih
          | some tip => simp [he, hf]

/-- C9: `normalizeConfidence` maps every numeric input into `[0, 1]` (never
null): values above 1 are divided by 100 then clamped, values already in
`[0, 1]` are returned unchanged, and an absent (null / undefined / NaN)
input yields null, never 0. -/
theorem C9_normalize_confidence_range :
    (∀ q : ℚ, ∃ r, normalizeConfidence (some q) = some r ∧ 0 ≤ r ∧ r ≤ 1) ∧
    (∀ q : ℚ, 1 < q → normalizeConfidence (some q) = some (maxQ 0 (minQ 1 (q / 100)))) ∧
    (∀ q : ℚ, 0 ≤ q → q ≤ 1 → normalizeConfidence (some q) = some q) ∧
    normalizeConfidence none = none := by
  have hnc : ∀ q : ℚ, normalizeConfidence (some q) =
      if q > 1 then some (maxQ 0 (minQ 1 (q / 100))) else some (maxQ 0 (minQ 1 q)) :=
    fun q => rfl
  refine ⟨?_, ?_, ?_, rfl⟩
  · intro q
    rw [hnc]; split
    · exact ⟨_, rfl, le_maxQ_left _ _, maxQ_le (by norm_num) (minQ_le_left _ _)⟩
    · exact ⟨_, rfl, le_maxQ_left _ _, maxQ_le (by norm_num) (minQ_le_left _ _)⟩
  · intro q hq
    rw [hnc, if_pos hq]
  · intro q h0 h1
    rw [hnc, if_neg (not_lt.mpr h1), minQ_eq_right h1, maxQ_eq_right h0]

/-- C9 witness: the range statement applied at 150 (0-100 scale input,
divided by 100 and clamped) and at 1 (in-range input returned unchanged),
plus the null case. -/
theorem C9_witness :
    normalizeConfidence (some 150) = some (maxQ 0 (minQ 1 (150 / 100))) ∧
    normalizeConfidence (some 1) = some 1 ∧
    normalizeConfidence none = none :=
  ⟨C9_normalize_confidence_range.2.1 150 (by decide),
   C9_normalize_confidence_range.2.2.1 1 (by decide) (by decide),
   C9_normalize_confidence_range.2.2.2⟩

/-! ## The duplicate-final guard (C7) -/

theorem isSameNormalized_self (a : List Char) : isSameNormalized a a = true := by
  simp [isSameNormalized]

/-- Every final event either leaves the state unchanged (paused / late /
rejected by a guard), or the trimmed text was empty, or it was accepted —
and acceptance records the trimmed text in `lastFinalRef` and does not touch
the paused / eof flags. -/
theorem onFinal_classify (s : ASRState) (text : List Char) (w : Option (List ASRWord)) :
    onFinalEvent s text w = s ∨ (trimL text).isEmpty = true ∨
      ((onFinalEvent s text w).lastFinal = trimL text ∧
        (onFinalEvent s text w).paused = false ∧
        (onFinalEvent s text w).eofSent = false) := by
  by_cases hp : s.paused = true
  · exact Or.inl (by simp [onFinalEvent, hp])
  · replace hp : s.paused = false := by simpa using hp
    by_cases hfe : (trimL text).isEmpty = true
    · exact Or.inr (Or.inl hfe)
    · replace hfe : (trimL text).isEmpty = false := by simpa using hfe
      by_cases he : s.eofSent = true
      · exact Or.inl (by simp [onFinalEvent, hp, hfe, he])
      · replace he : s.eofSent = false := by simpa using he
        by_cases h1 : isSameNormalized (trimL text) s.lastFinal = true
        · exact Or.inl (by simp [onFinalEvent, hp, hfe, he, h1])
        · replace h1 : isSameNormalized (trimL text) s.lastFinal = false := by simpa using h1
          by_cases h2 : isLoopingFinal (trimL text) s.recentFinals = true
          · exact Or.inl (by simp [onFinalEvent, hp, hfe, he, h1, h2])
          · replace h2 : isLoopingFinal (trimL text) s.recentFinals = false := by simpa using h2
            by_cases h3 : isLikelyRepeatedSegment s.transcript (trimL text) = true
            · exact Or.inl (by simp [onFinalEvent, hp, hfe, he, h1, h2, h3])
            · replace h3 : isLikelyRepeatedSegment s.transcript (trimL text) = false := by
                simpa using h3
              by_cases h4 : (!(takeLast 400 (normalizeText s.transcript)).isEmpty &&
                  decide (wordSimilarity (takeLast 400 (normalizeText s.transcript))
                    (normalizeText (trimL text)) > 92 / 100)) = true
              · exact Or.inl (by simp [onFinalEvent, hp, hfe, he, h1, h2, h3, h4])
              · replace h4 : (!(takeLast 400 (normalizeText s.transcript)).isEmpty &&
                    decide (wordSimilarity (takeLast 400 (normalizeText s.transcript))
                      (normalizeText (trimL text)) > 92 / 100)) = false := by simpa using h4
                refine Or.inr (Or.inr ?_)
                simp [onFinalEvent, hp, hfe, he, h1, h2, h3, h4]

/-- A non-empty final whose normalized text equals `lastFinalRef` is dropped
by the `isSameNormalized` dedupe guard: no state change. -/
theorem onFinal_dup_rejected (s : ASRState) (text : List Char) (w : Option (List ASRWord))
    (hp : s.paused = false) (he : s.eofSent = false)
    (hne : (trimL text).isEmpty = false)
    (hsame : isSameNormalized (trimL text) s.lastFinal = true) :
    onFinalEvent s text w = s := by
  simp [onFinalEvent, hp, he, hne, hsame]

/-- C7: delivering the 8-word final `"this is a test sentence with enough
words"` twice in a row through the final-event handler leaves the committed
transcript unchanged after the second delivery, from any starting state: the
second, duplicate final is caught by the repeat guards (if the first copy
was accepted, `isSameNormalized` against the recorded `lastFinal` rejects
the second; if the first was itself rejected, the state is unchanged and the
second is rejected identically) and is never merged. -/
theorem C7_duplicate_final_suppressed (s : ASRState) :
    (onFinalEvent (onFinalEvent s (str "this is a test sentence with enough words") none)
        (str "this is a test sentence with enough words") none).transcript =
      (onFinalEvent s (str "this is a test sentence with enough words") none).transcript := by
  rcases onFinal_classify s (str "this is a test sentence with enough words") none with h | h | h
  · simp only [h]
  · exact absurd h (by decide)
  · have := onFinal_dup_rejected
      (onFinalEvent s (str "this is a test sentence with enough words") none)
      (str "this is a test sentence with enough words") none h.2.1 h.2.2 (by decide)
      (by rw [h.1]; exact isSameNormalized_self _)
    rw [this]

/-! ## diffWords lemmas (C2, C3, C10) -/

theorem diffWords_tokens (reference hypothesis : List Char) (cs : List (Option ℚ)) :
    (diffWords reference hypothesis cs).tokens = (diffAcc reference hypothesis cs).tokens := rfl

theorem diffWords_mismatches (reference hypothesis : List Char) (cs : List (Option ℚ)) :
    (diffWords reference hypothesis cs).mismatches =
      (diffAcc reference hypothesis cs).mismatches := rfl

theorem diffWords_accuracy (reference hypothesis : List Char) (cs : List (Option ℚ)) :
    (diffWords reference hypothesis cs).accuracy =
      (if (diffAcc reference hypothesis cs).nMatches + (diffAcc reference hypothesis cs).nMisses +
            (diffAcc reference hypothesis cs).nExtras > 0
        then ((diffAcc reference hypothesis cs).nMatches : ℚ) /
            (((diffAcc reference hypothesis cs).nMatches + (diffAcc reference hypothesis cs).nMisses +
              (diffAcc reference hypothesis cs).nExtras : Nat) : ℚ) * 100
        else 0) := rfl

theorem dpF_self_diag (t : List (List Char)) : ∀ i, dpF t t i i = 0 := by
  intro i
  induction i with
  | zero =>
    unfold dpF
    rfl
  | succ i ih =>
    unfold dpF
    simp only [ih, eq_self_iff_true, if_true]
    omega


theorem backAux_self (t : List (List Char)) : ∀ i, backAux t t i i = List.replicate i Op.mat := by
  intro i
  induction i with
  | zero =>
    unfold backAux
    rfl
  | succ i ih =>
    unfold backAux
    rw [if_pos ⟨rfl, by rw [dpF_self_diag, dpF_self_diag]⟩, ih, List.replicate_succ]

theorem backAux_ins_row (r h : List (List Char)) :
    ∀ j, backAux r h 0 j = List.replicate j Op.ins := by
  intro j
  induction j with
  | zero =>
    unfold backAux
    rfl
  | succ j ih =>
    unfold backAux
    rw [ih, List.replicate_succ]

theorem walkOps_replicate_mat (r h : List (List Char)) (cs : List (Option ℚ)) :
    ∀ k ri hi, (walkOps r h cs (List.replicate k Op.mat) ri hi).mismatches = [] ∧
      (walkOps r h cs (List.replicate k Op.mat) ri hi).nMatches = k ∧
      (walkOps r h cs (List.replicate k Op.mat) ri hi).nMisses = 0 ∧
      (walkOps r h cs (List.replicate k Op.mat) ri hi).nExtras = 0 ∧
      ∀ td ∈ (walkOps r h cs (List.replicate k Op.mat) ri hi).tokens,
        td.status = Status.mat := by
  intro k
  induction k with
  | zero =>
    intro ri hi
    exact ⟨rfl, rfl, rfl, rfl, by intro td hmem; cases hmem⟩
  | succ k ih =>
    intro ri hi
    rw [List.replicate_succ]
    obtain ⟨h1, h2, h3, h4, h5⟩ := ih (ri + 1) (hi + 1)
    simp only [walkOps]
    refine ⟨h1, by rw [h2], h3, h4, ?_⟩
    intro td hmem
    rcases List.mem_cons.mp hmem with rfl | hmem
    · rfl
    · exact h5 td hmem

theorem walkOps_replicate_ins (r h : List (List Char)) (cs : List (Option ℚ)) :
    ∀ k ri hi, (walkOps r h cs (List.replicate k Op.ins) ri hi).nMatches = 0 ∧
      (walkOps r h cs (List.replicate k Op.ins) ri hi).nMisses = 0 ∧
      (walkOps r h cs (List.replicate k Op.ins) ri hi).nExtras = k := by
  intro k
  induction k with
  | zero => intro ri hi; exact ⟨rfl, rfl, rfl⟩
  | succ k ih =>
    intro ri hi
    rw [List.replicate_succ]
    obtain ⟨h1, h2, h3⟩ := ih ri (hi + 1)
    simp only [walkOps]
    exact ⟨h1, h2, by rw [h3]⟩

/-- C2 (amended): for every reference whose tokenization is non-empty, a
hypothesis that is token-for-token identical to the reference, scored with
no confidence data, yields accuracy 100, an empty mismatch list, and every
emitted token classified `match`.  (The amendment excludes the references
that tokenize to nothing — see the counterexample.) -/
theorem C2_identical_full_match (reference hypothesis : List Char)
    (hid : tokenizeSc hypothesis = tokenizeSc reference)
    (hne : tokenizeSc reference ≠ []) :
    (diffWords reference hypothesis []).accuracy = 100 ∧
    (diffWords reference hypothesis []).mismatches = [] ∧
    ∀ td ∈ (diffWords reference hypothesis []).tokens, td.status = Status.mat := by
  have hacc : diffAcc reference hypothesis [] =
      walkOps (tokenizeSc reference) (tokenizeSc reference) []
        (List.replicate (tokenizeSc reference).length Op.mat) 0 0 := by
    unfold diffAcc diffOps
    rw [hid, backAux_self, List.reverse_replicate]
  obtain ⟨h1, h2, h3, h4, h5⟩ := walkOps_replicate_mat (tokenizeSc reference)
    (tokenizeSc reference) [] (tokenizeSc reference).length 0 0
  have hn : 0 < (tokenizeSc reference).length := List.length_pos.mpr hne
  refine ⟨?_, ?_, ?_⟩
  · rw [diffWords_accuracy, hacc, h2, h3, h4]
    rw [if_pos (by omega)]
    simp only [Nat.add_zero]
    rw [div_self (Nat.cast_ne_zero.mpr (by omega)), one_mul]
  · rw [diffWords_mismatches, hacc, h1]
  · rw [diffWords_tokens, hacc]
    exact h5

/-- C2 witness: the amended statement at the spec's concrete case,
reference and hypothesis `"the quick brown fox"`. -/
theorem C2_witness :
    tokenizeSc (str "the quick brown fox") = tokenizeSc (str "the quick brown fox") ∧
    tokenizeSc (str "the quick brown fox") ≠ [] ∧
    (diffWords (str "the quick brown fox") (str "the quick brown fox") []).accuracy = 100 ∧
    (diffWords (str "the quick brown fox") (str "the quick brown fox") []).mismatches = [] :=
  ⟨rfl, by decide,
    (C2_identical_full_match (str "the quick brown fox") (str "the quick brown fox") rfl (by decide)).1,
    (C2_identical_full_match (str "the quick brown fox") (str "the quick brown fox") rfl (by decide)).2.1⟩

theorem diffWords_empty_ref_accuracy (hypothesis : List Char) (cs : List (Option ℚ)) :
    (diffWords (str "") hypothesis cs).accuracy = 0 := by
  have h0 : tokenizeSc (str "") = [] := rfl
  have hacc : diffAcc (str "") hypothesis cs =
      walkOps [] (tokenizeSc hypothesis) cs
        (List.replicate (tokenizeSc hypothesis).length Op.ins) 0 0 := by
    unfold diffAcc diffOps
    rw [h0, List.length_nil, backAux_ins_row, List.reverse_replicate]
  obtain ⟨h1, h2, h3⟩ := walkOps_replicate_ins [] (tokenizeSc hypothesis) cs
    (tokenizeSc hypothesis).length 0 0
  rw [diffWords_accuracy, hacc, h1, h2, h3]
  split
  · rw [Nat.cast_zero, zero_div, zero_mul]
  · rfl

theorem backAux_zero_zero (r h : List (List Char)) : backAux r h 0 0 = [] := by
  unfold backAux
  rfl

theorem backAux_countP (r h : List (List Char)) :
    ∀ n i j, i + j ≤ n →
      (backAux r h i j).countP opRef = i ∧ (backAux r h i j).countP opHyp = j := by
  intro n
  induction n with
  | zero =>
    intro i j hle
    have hi : i = 0 := by omega
    have hj : j = 0 := by omega
    subst hi; subst hj
    rw [backAux_zero_zero]
    exact ⟨rfl, rfl⟩
  | succ n ih =>
    intro i j hle
    match i, j with
    | 0, 0 =>
      rw [backAux_zero_zero]
      exact ⟨rfl, rfl⟩
    | 0, j + 1 =>
      obtain ⟨ha, hb⟩ := ih 0 j (by omega)
      unfold backAux
      constructor
      · simp [List.countP_cons, ha, opRef]
      · simp [List.countP_cons, hb, opHyp]
    | i + 1, 0 =>
      obtain ⟨ha, hb⟩ := ih i 0 (by omega)
      unfold backAux
      constructor
      · simp [List.countP_cons, ha, opRef]
      · simp [List.countP_cons, hb, opHyp]
    | i + 1, j + 1 =>
      unfold backAux
      split
      · obtain ⟨ha, hb⟩ := ih i j (by omega)
        constructor
        · simp [List.countP_cons, ha, opRef]
        · simp [List.countP_cons, hb, opHyp]
      · split
        · obtain ⟨ha, hb⟩ := ih i j (by omega)
          constructor
          · simp [List.countP_cons, ha, opRef]
          · simp [List.countP_cons, hb, opHyp]
        · split
          · obtain ⟨ha, hb⟩ := ih (i + 1) j (by omega)
            constructor
            · simp [List.countP_cons, ha, opRef]
            · simp [List.countP_cons, hb, opHyp]
          · obtain ⟨ha, hb⟩ := ih i (j + 1) (by omega)
            constructor
            · simp [List.countP_cons, ha, opRef]
            · simp [List.countP_cons, hb, opHyp]

theorem countP_opRef_eq_counts (l : List Op) :
    l.countP opRef = l.count Op.mat + l.count Op.sub + l.count Op.del := by
  induction l with
  | nil => rfl
  | cons op rest ih =>
    cases op <;> simp [List.countP_cons, List.count_cons, ih, opRef] <;> omega

theorem getD_of_lt {α : Type} (l : List α) (n : Nat) (d : α) (h : n < l.length) :
    l.getD n d = l[n] := by
  rw [List.getD_eq_getElem?_getD, List.getElem?_eq_getElem h, Option.getD_some]

theorem walkOps_tokens_map (r h : List (List Char)) (cs : List (Option ℚ)) :
    ∀ ops ri hi, hi + ops.countP opHyp ≤ h.length →
      (walkOps r h cs ops ri hi).tokens.map (fun td => td.word) =
        (h.drop hi).take (ops.countP opHyp) := by
  intro ops
  induction ops with
  | nil =>
    intro ri hi hle
    simp [walkOps]
  | cons op rest ih =>
    intro ri hi hle
    cases op with
    | mat =>
      have hcount : ((Op.mat :: rest).countP opHyp) = rest.countP opHyp + 1 := by
        simp [List.countP_cons, opHyp]
      rw [hcount] at hle ⊢
      have hhi : hi < h.length := by omega
      simp only [walkOps, List.map_cons]
      rw [ih (ri + 1) (hi + 1) (by omega), getD_of_lt _ _ _ hhi,
        List.drop_eq_getElem_cons hhi, List.take_succ_cons]
    | sub =>
      have hcount : ((Op.sub :: rest).countP opHyp) = rest.countP opHyp + 1 := by
        simp [List.countP_cons, opHyp]
      rw [hcount] at hle ⊢
      have hhi : hi < h.length := by omega
      simp only [walkOps, List.map_cons]
      rw [ih (ri + 1) (hi + 1) (by omega), getD_of_lt _ _ _ hhi,
        List.drop_eq_getElem_cons hhi, List.take_succ_cons]
    | ins =>
      have hcount : ((Op.ins :: rest).countP opHyp) = rest.countP opHyp + 1 := by
        simp [List.countP_cons, opHyp]
      rw [hcount] at hle ⊢
      have hhi : hi < h.length := by omega
      simp only [walkOps, List.map_cons]
      rw [ih ri (hi + 1) (by omega), getD_of_lt _ _ _ hhi,
        List.drop_eq_getElem_cons hhi, List.take_succ_cons]
    | del =>
      have hcount : ((Op.del :: rest).countP opHyp) = rest.countP opHyp := by
        simp [List.countP_cons, opHyp]
      rw [hcount] at hle ⊢
      simp only [walkOps]
      exact ih (ri + 1) hi hle

/-- C10: for every reference and hypothesis, the tokens array returned by
`diffWords` is exactly the tokenized hypothesis (each word once, in order),
and the backtrace's match + substitution + deletion operation counts sum to
the reference token count: the walk consumes every reference and every
hypothesis token exactly once. -/
theorem C10_walk_consumes_exactly (reference hypothesis : List Char) (cs : List (Option ℚ)) :
    (diffWords reference hypothesis cs).tokens.map (fun td => td.word) =
      tokenizeSc hypothesis ∧
    (diffOps (tokenizeSc reference) (tokenizeSc hypothesis)).count Op.mat +
        (diffOps (tokenizeSc reference) (tokenizeSc hypothesis)).count Op.sub +
        (diffOps (tokenizeSc reference) (tokenizeSc hypothesis)).count Op.del =
      (tokenizeSc reference).length := by
  obtain ⟨hcr, hch⟩ := backAux_countP (tokenizeSc reference) (tokenizeSc hypothesis)
    ((tokenizeSc reference).length + (tokenizeSc hypothesis).length)
    (tokenizeSc reference).length (tokenizeSc hypothesis).length (le_refl _)
  have hopsH : (diffOps (tokenizeSc reference) (tokenizeSc hypothesis)).countP opHyp =
      (tokenizeSc hypothesis).length := by
    unfold diffOps
    rw [List.countP_reverse, hch]
  have hopsR : (diffOps (tokenizeSc reference) (tokenizeSc hypothesis)).countP opRef =
      (tokenizeSc reference).length := by
    unfold diffOps
    rw [List.countP_reverse, hcr]
  constructor
  · rw [diffWords_tokens]
    unfold diffAcc
    rw [walkOps_tokens_map _ _ _ _ 0 0 (by rw [hopsH]; omega), hopsH, List.drop_zero,
      List.take_length]
  · rw [← countP_opRef_eq_counts, hopsR]

/-- C2 counterexample: the claim quantifies over every reference string, but
an empty reference with the (token-for-token identical) empty hypothesis
scores 0, not 100: nothing was spoken, so `spokenTotal` is 0. -/
theorem C2_counterexample :
    (diffWords (str "") (str "") []).accuracy = 0 ∧
    (diffWords (str "") (str "") []).accuracy ≠ 100 := by
  have h := diffWords_empty_ref_accuracy (str "") []
  exact ⟨h, by rw [h]; norm_num⟩

/-- C3: aligning any hypothesis (with any confidence list) against an empty
reference yields accuracy 0. -/
theorem C3_empty_reference_zero (hypothesis : List Char) (cs : List (Option ℚ)) :
    (diffWords (str "") hypothesis cs).accuracy = 0 :=
  diffWords_empty_ref_accuracy hypothesis cs

/-- C3 witness: the boundary case of the spec, `align("", "anything")`. -/
theorem C3_witness : (diffWords (str "") (str "anything") []).accuracy = 0 :=
  diffWords_empty_ref_accuracy (str "anything") []

/-! ## normalizeText characterization lemmas (C5, C6) -/

theorem nwRunsA_cons_ws {c : Char} (cs : List Char) (h : isWsChar c = true) :
    nwRunsA (c :: cs) = ((nwRunsA cs).1, false) := by
  simp only [nwRunsA, h, if_true]

theorem nwRunsA_cons_nonws_true {c : Char} {cs : List Char} {r : List Char}
    {rest : List (List Char)} (hc : isWsChar c = false)
    (h : nwRunsA cs = (r :: rest, true)) :
    nwRunsA (c :: cs) = ((c :: r) :: rest, true) := by
  simp only [nwRunsA, hc, h]
  simp

theorem nwRunsA_cons_nonws_false {c : Char} {cs : List Char} {rs : List (List Char)}
    (hc : isWsChar c = false) (h : nwRunsA cs = (rs, false)) :
    nwRunsA (c :: cs) = ([c] :: rs, true) := by
  cases rs <;> simp only [nwRunsA, hc, h] <;> simp

theorem headRun_cons (c : Char) (cs : List Char) : headRun (c :: cs) = !isWsChar c := by
  by_cases h : isWsChar c
  · unfold headRun
    rw [nwRunsA_cons_ws cs h, h]
    rfl
  · replace h : isWsChar c = false := by simpa using h
    unfold headRun
    rcases hcs : nwRunsA cs with ⟨rs, b⟩
    cases b with
    | true =>
      rcases rs with _ | ⟨r, rest⟩
      · rw [show nwRunsA (c :: cs) = ([[c]], true) from by
          simp only [nwRunsA, h, hcs]; simp, h]
        rfl
      · rw [nwRunsA_cons_nonws_true h hcs, h]
        rfl
    | false =>
      rw [nwRunsA_cons_nonws_false h hcs, h]
      rfl

theorem nwRuns_cons_ws {c : Char} (cs : List Char) (h : isWsChar c = true) :
    nwRuns (c :: cs) = nwRuns cs := by
  unfold nwRuns
  rw [nwRunsA_cons_ws cs h]

theorem nwRunsA_true_ne_nil : ∀ l : List Char, (nwRunsA l).2 = true → (nwRunsA l).1 ≠ [] := by
  intro l
  induction l with
  | nil => intro h; cases h
  | cons c cs ih =>
    intro h
    by_cases hc : isWsChar c
    · rw [nwRunsA_cons_ws cs hc] at h
      cases h
    · replace hc : isWsChar c = false := by simpa using hc
      rcases hcs : nwRunsA cs with ⟨rs, b⟩
      cases b with
      | true =>
        have hne : rs ≠ [] := by have := ih (by rw [hcs]); rwa [hcs] at this
        rcases rs with _ | ⟨r, rest⟩
        · exact absurd rfl hne
        · rw [nwRunsA_cons_nonws_true hc hcs]
          simp
      | false =>
        rw [nwRunsA_cons_nonws_false hc hcs]
        simp

theorem leadSp_true (l : List Char) : leadSp true l = [] := by
  cases l <;> simp [leadSp]

theorem intercalateSp_cons_cons (c : Char) (w : List Char) (ws : List (List Char)) :
    intercalateSp ((c :: w) :: ws) = c :: intercalateSp (w :: ws) := by
  cases ws <;> simp [intercalateSp]

theorem intercalateSp_ne_nil {r : List Char} {rest : List (List Char)} (hr : r ≠ []) :
    intercalateSp (r :: rest) ≠ [] := by
  cases rest <;> simp [intercalateSp, hr]

theorem nwRuns_ne_nil_mem : ∀ (l : List Char), ∀ w ∈ nwRuns l, w ≠ [] := by
  intro l
  induction l with
  | nil => intro w hw; cases hw
  | cons c cs ih =>
    by_cases hc : isWsChar c
    · rw [nwRuns_cons_ws cs hc]; exact ih
    · replace hc : isWsChar c = false := by simpa using hc
      rcases hcs : nwRunsA cs with ⟨rs, b⟩
      have hruns : nwRuns cs = rs := by unfold nwRuns; rw [hcs]
      cases b with
      | true =>
        have hne : rs ≠ [] := by
          have := nwRunsA_true_ne_nil cs (by rw [hcs])
          rwa [hcs] at this
        rcases rs with _ | ⟨r, rest⟩
        · exact absurd rfl hne
        · intro w hw
          rw [show nwRuns (c :: cs) = (c :: r) :: rest from by
            unfold nwRuns; rw [nwRunsA_cons_nonws_true hc hcs]] at hw
          rcases List.mem_cons.mp hw with rfl | hw2
          · simp
          · exact ih w (by rw [hruns]; exact List.mem_cons_of_mem r hw2)
      | false =>
        intro w hw
        rw [show nwRuns (c :: cs) = [c] :: rs from by
          unfold nwRuns; rw [nwRunsA_cons_nonws_false hc hcs]] at hw
        rcases List.mem_cons.mp hw with rfl | hw2
        · simp
        · exact ih w (by rw [hruns]; exact hw2)

theorem nwRuns_mem_nonws : ∀ (l : List Char), ∀ w ∈ nwRuns l, ∀ c ∈ w, isWsChar c = false := by
  intro l
  induction l with
  | nil => intro w hw; cases hw
  | cons c cs ih =>
    by_cases hc : isWsChar c
    · rw [nwRuns_cons_ws cs hc]; exact ih
    · replace hc : isWsChar c = false := by simpa using hc
      rcases hcs : nwRunsA cs with ⟨rs, b⟩
      have hruns : nwRuns cs = rs := by unfold nwRuns; rw [hcs]
      cases b with
      | true =>
        have hne : rs ≠ [] := by
          have := nwRunsA_true_ne_nil cs (by rw [hcs])
          rwa [hcs] at this
        rcases rs with _ | ⟨r, rest⟩
        · exact absurd rfl hne
        · intro w hw
          rw [show nwRuns (c :: cs) = (c :: r) :: rest from by
            unfold nwRuns; rw [nwRunsA_cons_nonws_true hc hcs]] at hw
          rcases List.mem_cons.mp hw with rfl | hw2
          · intro x hx
            rcases List.mem_cons.mp hx with rfl | hx2
            · exact hc
            · exact ih r (by rw [hruns]; exact List.mem_cons_self r rest) x hx2
          · exact ih w (by rw [hruns]; exact List.mem_cons_of_mem r hw2)
      | false =>
        intro w hw
        rw [show nwRuns (c :: cs) = [c] :: rs from by
          unfold nwRuns; rw [nwRunsA_cons_nonws_false hc hcs]] at hw
        rcases List.mem_cons.mp hw with rfl | hw2
        · intro x hx
          rcases List.mem_cons.mp hx with rfl | hx2
          · exact hc
          · cases hx2
        · exact ih w (by rw [hruns]; exact hw2)

theorem dropWhile_concat_char (p : Char → Bool) (u : List Char) (c : Char) :
    (u ++ [c]).dropWhile p =
      if (u.dropWhile p).isEmpty then (if p c then [] else [c])
      else u.dropWhile p ++ [c] := by
  induction u with
  | nil => simp [List.dropWhile_cons]
  | cons a u' ih =>
    by_cases ha : p a
    · simpa [List.dropWhile_cons, ha] using ih
    · simp [List.dropWhile_cons, ha]

theorem rdropWs_cons_nonws {c : Char} (X : List Char) (hc : isWsChar c = false) :
    rdropWs (c :: X) = c :: rdropWs X := by
  unfold rdropWs
  rw [List.reverse_cons, dropWhile_concat_char]
  split
  · rename_i hemp
    simp only [hc, Bool.false_eq_true, if_false]
    rw [List.isEmpty_iff.mp hemp]
    rfl
  · rw [List.reverse_append]
    rfl

theorem rdropWs_cons_ws {c : Char} (X : List Char) (hc : isWsChar c = true) :
    rdropWs (c :: X) = if rdropWs X = [] then [] else c :: rdropWs X := by
  unfold rdropWs
  rw [List.reverse_cons, dropWhile_concat_char]
  by_cases hemp : ((X.reverse).dropWhile isWsChar).isEmpty
  · rw [if_pos hemp]
    simp only [hc, if_true]
    rw [if_pos (by rw [List.isEmpty_iff.mp hemp]; rfl)]
    rfl
  · rw [if_neg hemp, if_neg (by
      intro h
      exact hemp (by
        have : (X.reverse.dropWhile isWsChar).reverse = [] := h
        rw [List.isEmpty_iff]
        simpa using this))]
    rw [List.reverse_append]
    rfl

theorem leadSp_of_headRun {cs : List Char} (h : headRun cs = true) (b : Bool) :
    leadSp b cs = [] := by
  cases cs with
  | nil => rfl
  | cons d cs' =>
    have hd := headRun_cons d cs'
    rw [h] at hd
    have hdw : isWsChar d = false := by
      cases hws : isWsChar d
      · rfl
      · rw [hws] at hd; cases hd
    simp [leadSp, hdw]

theorem headRun_false_ws {d : Char} {cs' : List Char} (h : headRun (d :: cs') = false) :
    isWsChar d = true := by
  have hd := headRun_cons d cs'
  rw [h] at hd
  cases hws : isWsChar d
  · rw [hws] at hd; cases hd
  · rfl

theorem rdrop_collapse (l : List Char) :
    ∀ b, rdropWs (collapseWsAux b l) = leadSp b l ++ intercalateSp (nwRuns l) := by
  induction l with
  | nil => intro b; rfl
  | cons c cs ih =>
    intro b
    by_cases hc : isWsChar c
    · cases b with
      | true =>
        rw [show collapseWsAux true (c :: cs) = collapseWsAux true cs from by
          simp [collapseWsAux, hc]]
        rw [ih true, leadSp_true, leadSp_true, nwRuns_cons_ws cs hc]
      | false =>
        rw [show collapseWsAux false (c :: cs) = ' ' :: collapseWsAux true cs from by
          simp [collapseWsAux, hc]]
        rw [rdropWs_cons_ws _ (by rfl), ih true, leadSp_true, List.nil_append]
        rcases hrs : nwRuns cs with _ | ⟨r, rest⟩
        · rw [show intercalateSp [] = [] from rfl, if_pos rfl]
          have hrc : nwRuns (c :: cs) = [] := by rw [nwRuns_cons_ws cs hc, hrs]
          rw [hrc]
          simp [leadSp, hrc, intercalateSp]
        · have hne : intercalateSp (r :: rest) ≠ [] :=
            intercalateSp_ne_nil
              (nwRuns_ne_nil_mem cs r (by rw [hrs]; exact List.mem_cons_self r rest))
          rw [if_neg hne]
          have hrc : nwRuns (c :: cs) = r :: rest := by rw [nwRuns_cons_ws cs hc, hrs]
          rw [hrc]
          simp [leadSp, hc, hrc]
    · replace hc : isWsChar c = false := by simpa using hc
      rw [show collapseWsAux b (c :: cs) = c :: collapseWsAux false cs from by
        cases b <;> simp [collapseWsAux, hc]]
      rw [rdropWs_cons_nonws _ hc, ih false]
      have hlead : leadSp b (c :: cs) = [] := by simp [leadSp, hc]
      rw [hlead, List.nil_append]
      rcases hcs : nwRunsA cs with ⟨rs, hb⟩
      have hruns : nwRuns cs = rs := by unfold nwRuns; rw [hcs]
      cases hb with
      | true =>
        have hne : rs ≠ [] := by
          have := nwRunsA_true_ne_nil cs (by rw [hcs])
          rwa [hcs] at this
        rcases rs with _ | ⟨r, rest⟩
        · exact absurd rfl hne
        · have hhead : headRun cs = true := by unfold headRun; rw [hcs]
          rw [leadSp_of_headRun hhead, List.nil_append, hruns]
          rw [show nwRuns (c :: cs) = (c :: r) :: rest from by
            unfold nwRuns; rw [nwRunsA_cons_nonws_true hc hcs]]
          rw [intercalateSp_cons_cons]
      | false =>
        rw [show nwRuns (c :: cs) = [c] :: rs from by
          unfold nwRuns; rw [nwRunsA_cons_nonws_false hc hcs]]
        rcases rs with _ | ⟨r, rest⟩
        · have hlead2 : leadSp false cs = [] := by
            cases cs with
            | nil => rfl
            | cons d cs' => simp [leadSp, hruns]
          rw [hruns, hlead2]
          rfl
        · have hcs_ne : cs ≠ [] := by
            intro hcontra
            rw [hcontra] at hruns
            cases hruns
          rcases cs with _ | ⟨d, cs'⟩
          · exact absurd rfl hcs_ne
          · have hdw : isWsChar d = true :=
              headRun_false_ws (by unfold headRun; rw [hcs])
            have hlead2 : leadSp false (d :: cs') = [' '] := by
              simp [leadSp, hdw, hruns]
            rw [hruns, hlead2]
            rw [show intercalateSp ([c] :: r :: rest) = c :: ' ' :: intercalateSp (r :: rest)
              from by simp [intercalateSp]]
            rfl

theorem dropWhile_collapseWsAux (l : List Char) :
    ∀ b, (collapseWsAux b l).dropWhile isWsChar =
      collapseWsAux true (l.dropWhile isWsChar) := by
  induction l with
  | nil => intro b; rfl
  | cons c cs ih =>
    intro b
    by_cases hc : isWsChar c
    · cases b with
      | true =>
        rw [show collapseWsAux true (c :: cs) = collapseWsAux true cs from by
          simp [collapseWsAux, hc]]
        rw [ih true, List.dropWhile_cons_of_pos hc]
      | false =>
        rw [show collapseWsAux false (c :: cs) = ' ' :: collapseWsAux true cs from by
          simp [collapseWsAux, hc]]
        rw [List.dropWhile_cons_of_pos (by rfl : isWsChar ' ' = true)]
        rw [ih true, List.dropWhile_cons_of_pos hc]
    · replace hc : isWsChar c = false := by simpa using hc
      rw [show collapseWsAux b (c :: cs) = c :: collapseWsAux false cs from by
        cases b <;> simp [collapseWsAux, hc]]
      rw [List.dropWhile_cons_of_neg (by simp [hc]), List.dropWhile_cons_of_neg (by simp [hc])]
      rw [show collapseWsAux true (c :: cs) = c :: collapseWsAux false cs from by
        simp [collapseWsAux, hc]]

theorem nwRuns_dropWhile (l : List Char) :
    nwRuns (l.dropWhile isWsChar) = nwRuns l := by
  induction l with
  | nil => rfl
  | cons c cs ih =>
    by_cases hc : isWsChar c
    · rw [List.dropWhile_cons_of_pos hc, ih, nwRuns_cons_ws cs hc]
    · replace hc : isWsChar c = false := by simpa using hc
      rw [List.dropWhile_cons_of_neg (by simp [hc])]

theorem trimL_collapse (l : List Char) :
    trimL (collapseWs l) = intercalateSp (nwRuns l) := by
  have h1 : trimL (collapseWs l) =
      rdropWs ((collapseWsAux false l).dropWhile isWsChar) := rfl
  rw [h1, dropWhile_collapseWsAux l false, rdrop_collapse, leadSp_true, List.nil_append,
    nwRuns_dropWhile]

theorem normalizeText_runs (s : List Char) :
    normalizeText s = intercalateSp (nwRuns ((s.map lowChar).map replChar)) :=
  trimL_collapse _

theorem splitSpace_ne_nil (l : List Char) : splitSpace l ≠ [] := by
  induction l with
  | nil => simp [splitSpace]
  | cons c cs ih =>
    by_cases hc : c == ' '
    · simp [splitSpace, hc]
    · rcases hsp : splitSpace cs with _ | ⟨w, ws⟩
      · exact absurd hsp ih
      · simp [splitSpace, hc, hsp]

theorem splitSpace_spacefree (w : List Char) (hw : ∀ c ∈ w, c ≠ ' ') :
    splitSpace w = [w] := by
  induction w with
  | nil => rfl
  | cons c cs ih =>
    have hc : (c == ' ') = false := by
      have := hw c (List.mem_cons_self c cs)
      simpa using this
    have ihw : splitSpace cs = [cs] := ih fun x hx => hw x (List.mem_cons_of_mem c hx)
    simp [splitSpace, hc, ihw]

theorem splitSpace_append_space (w t : List Char) (hw : ∀ c ∈ w, c ≠ ' ') :
    splitSpace (w ++ ' ' :: t) = w :: splitSpace t := by
  induction w with
  | nil => simp [splitSpace]
  | cons c cs ih =>
    have hc : (c == ' ') = false := by
      have := hw c (List.mem_cons_self c cs)
      simpa using this
    have ihw : splitSpace (cs ++ ' ' :: t) = cs :: splitSpace t :=
      ih fun x hx => hw x (List.mem_cons_of_mem c hx)
    simp [splitSpace, hc, ihw]

theorem splitSpace_intercalate (rs : List (List Char))
    (h : ∀ w ∈ rs, ∀ c ∈ w, c ≠ ' ') (hne : rs ≠ []) :
    splitSpace (intercalateSp rs) = rs := by
  induction rs with
  | nil => exact absurd rfl hne
  | cons w ws ih =>
    rcases ws with _ | ⟨w2, ws'⟩
    · exact splitSpace_spacefree w (h w (List.mem_cons_self w []))
    · rw [show intercalateSp (w :: w2 :: ws') = w ++ ' ' :: intercalateSp (w2 :: ws') from rfl]
      rw [splitSpace_append_space w _ (h w (List.mem_cons_self w (w2 :: ws')))]
      rw [ih (fun x hx => h x (List.mem_cons_of_mem w hx)) (by simp)]

theorem nwRuns_no_space (l : List Char) : ∀ w ∈ nwRuns l, ∀ c ∈ w, c ≠ ' ' := by
  intro w hw c hc
  have := nwRuns_mem_nonws l w hw c hc
  intro hcontra
  rw [hcontra] at this
  cases this

theorem tokenize_eq_runs (s : List Char) :
    tokenize s = nwRuns ((s.map lowChar).map replChar) := by
  unfold tokenize
  rw [normalizeText_runs]
  rcases hrs : nwRuns ((s.map lowChar).map replChar) with _ | ⟨r, rest⟩
  · rfl
  · have hr : r ≠ [] := nwRuns_ne_nil_mem _ r (by rw [hrs]; exact List.mem_cons_self r rest)
    have hne : intercalateSp (r :: rest) ≠ [] := intercalateSp_ne_nil hr
    rw [if_neg (by simpa [List.isEmpty_iff] using hne)]
    exact splitSpace_intercalate (r :: rest) (by rw [← hrs]; exact nwRuns_no_space _) (by simp)

theorem ws_char_cases {c : Char} (h : isWsChar c = true) :
    c = ' ' ∨ c = '\t' ∨ c = '\n' ∨ c = Char.ofNat 11 ∨ c = Char.ofNat 12 ∨ c = '\r' := by
  simpa [isWsChar, or_assoc] using h

theorem lowChar_ws {c : Char} (h : isWsChar c = true) : lowChar c = c := by
  rcases ws_char_cases h with rfl | rfl | rfl | rfl | rfl | rfl <;> decide

theorem replChar_ws {c : Char} (h : isWsChar c = true) : replChar c = c := by
  simp [replChar, h]

theorem mapped_allws (w : List Char) (hw : ∀ c ∈ w, isWsChar c = true) :
    (w.map lowChar).map replChar = w := by
  induction w with
  | nil => rfl
  | cons c w' ih =>
    have hc := hw c (List.mem_cons_self c w')
    simp only [List.map_cons, lowChar_ws hc, replChar_ws hc]
    rw [ih fun x hx => hw x (List.mem_cons_of_mem c hx)]

theorem nwRunsA_allws (w : List Char) (hw : ∀ c ∈ w, isWsChar c = true) :
    nwRunsA w = ([], false) := by
  induction w with
  | nil => rfl
  | cons c w' ih =>
    rw [nwRunsA_cons_ws w' (hw c (List.mem_cons_self c w')),
      ih fun x hx => hw x (List.mem_cons_of_mem c hx)]

theorem nwRuns_allws_append (w x : List Char) (hw : ∀ c ∈ w, isWsChar c = true) :
    nwRuns (w ++ x) = nwRuns x := by
  induction w with
  | nil => rfl
  | cons c w' ih =>
    rw [List.cons_append, nwRuns_cons_ws _ (hw c (List.mem_cons_self c w')),
      ih fun y hy => hw y (List.mem_cons_of_mem c hy)]

theorem nwRunsA_append_allws (x w : List Char) (hw : ∀ c ∈ w, isWsChar c = true) :
    nwRunsA (x ++ w) = nwRunsA x := by
  induction x with
  | nil => rw [List.nil_append, nwRunsA_allws w hw]; rfl
  | cons c x' ih => simp only [List.cons_append, nwRunsA, List.append_eq, ih]

theorem rdropWs_decomposition (y : List Char) :
    ∃ w, y = rdropWs y ++ w ∧ ∀ c ∈ w, isWsChar c = true := by
  refine ⟨(y.reverse.takeWhile isWsChar).reverse, ?_, ?_⟩
  · conv_lhs => rw [← List.reverse_reverse y,
      ← List.takeWhile_append_dropWhile isWsChar y.reverse]
    rw [List.reverse_append]
    rfl
  · intro c hc
    rw [List.mem_reverse] at hc
    exact List.mem_takeWhile_imp hc

theorem nwRuns_mapped_trimL (s : List Char) :
    nwRuns (((trimL s).map lowChar).map replChar) =
      nwRuns ((s.map lowChar).map replChar) := by
  obtain ⟨w2, hdec, hw2⟩ := rdropWs_decomposition (s.dropWhile isWsChar)
  have htrim : trimL s = rdropWs (s.dropWhile isWsChar) := rfl
  have htw : ∀ c ∈ s.takeWhile isWsChar, isWsChar c = true :=
    fun c hc => List.mem_takeWhile_imp hc
  have hs : s = s.takeWhile isWsChar ++ (trimL s ++ w2) := by
    rw [htrim, ← hdec, List.takeWhile_append_dropWhile]
  conv_rhs => rw [hs]
  rw [List.map_append, List.map_append, List.map_append, List.map_append,
    mapped_allws _ htw, nwRuns_allws_append _ _ htw, mapped_allws _ hw2]
  unfold nwRuns
  rw [nwRunsA_append_allws _ _ hw2]

theorem normalizeText_trimL (s : List Char) : normalizeText (trimL s) = normalizeText s := by
  rw [normalizeText_runs, normalizeText_runs, nwRuns_mapped_trimL]

theorem tokenize_trimL (s : List Char) : tokenize (trimL s) = tokenize s := by
  rw [tokenize_eq_runs, tokenize_eq_runs, nwRuns_mapped_trimL]

theorem isEmpty_false_of_ne {l : List Char} (h : l ≠ []) : l.isEmpty = false := by
  cases l
  · exact absurd rfl h
  · rfl

theorem nwRuns_length_cons_nonws {c : Char} (cs : List Char) (hc : isWsChar c = false) :
    (nwRuns (c :: cs)).length =
      if headRun cs then (nwRuns cs).length else (nwRuns cs).length + 1 := by
  rcases hcs : nwRunsA cs with ⟨rs, b⟩
  have hruns : nwRuns cs = rs := by unfold nwRuns; rw [hcs]
  have hhead : headRun cs = b := by unfold headRun; rw [hcs]
  cases b with
  | true =>
    have hne : rs ≠ [] := by
      have := nwRunsA_true_ne_nil cs (by rw [hcs])
      rwa [hcs] at this
    rcases rs with _ | ⟨r, rest⟩
    · exact absurd rfl hne
    · rw [show nwRuns (c :: cs) = (c :: r) :: rest from by
        unfold nwRuns; rw [nwRunsA_cons_nonws_true hc hcs], hruns, hhead]
      simp
  | false =>
    rw [show nwRuns (c :: cs) = [c] :: rs from by
      unfold nwRuns; rw [nwRunsA_cons_nonws_false hc hcs], hruns, hhead]
    simp

theorem headRun_append_of_ne {u : List Char} (v : List Char) (hu : u ≠ []) :
    headRun (u ++ v) = headRun u := by
  rcases u with _ | ⟨c, u'⟩
  · exact absurd rfl hu
  · rw [List.cons_append, headRun_cons, headRun_cons]

theorem nwRuns_length_le_append (u v : List Char) :
    (nwRuns u).length ≤ (nwRuns (u ++ v)).length := by
  induction u with
  | nil => simp [nwRuns, nwRunsA]
  | cons c u' ih =>
    by_cases hc : isWsChar c
    · rw [List.cons_append, nwRuns_cons_ws _ hc, nwRuns_cons_ws _ hc]
      exact ih
    · replace hc : isWsChar c = false := by simpa using hc
      rw [List.cons_append, nwRuns_length_cons_nonws _ hc, nwRuns_length_cons_nonws _ hc]
      rcases u' with _ | ⟨d, u''⟩
      · simp only [List.nil_append]
        have hnilruns : (nwRuns ([] : List Char)).length = 0 := rfl
        have hnilhead : headRun ([] : List Char) = false := rfl
        rw [hnilruns, hnilhead, if_neg (by simp)]
        by_cases hv : headRun v = true
        · rw [if_pos hv]
          have hvne : nwRuns v ≠ [] := by
            have := nwRunsA_true_ne_nil v hv
            unfold nwRuns
            exact this
          have := List.length_pos.mpr hvne
          omega
        · rw [if_neg hv]
          omega
      · rw [headRun_append_of_ne v (by simp)]
        by_cases hh : headRun (d :: u'') = true
        · rw [if_pos hh, if_pos hh]
          exact ih
        · rw [if_neg hh, if_neg hh]
          omega

theorem splitSpace_length (l : List Char) :
    (splitSpace l).length = l.count ' ' + 1 := by
  induction l with
  | nil => rfl
  | cons c cs ih =>
    by_cases hc : c == ' '
    · have hceq : c = ' ' := by simpa using hc
      subst hceq
      simp [splitSpace, List.count_cons, ih]
    · rcases hsp : splitSpace cs with _ | ⟨w, ws⟩
      · exact absurd hsp (splitSpace_ne_nil cs)
      · have hstep : splitSpace (c :: cs) = (c :: w) :: ws := by
          simp [splitSpace, hc, hsp]
        rw [hstep]
        have hcne : ¬(c = ' ') := by simpa using hc
        have hcount : (c :: cs).count ' ' = cs.count ' ' := by
          simp [List.count_cons, hcne]
        rw [hcount, ← ih, hsp]
        simp

theorem tokenize_length (s : List Char) :
    (tokenize s).length =
      if (normalizeText s).isEmpty then 0 else (normalizeText s).count ' ' + 1 := by
  by_cases he : (normalizeText s).isEmpty = true
  · rw [if_pos he, show tokenize s = [] from by simp only [tokenize, he, if_true]]
    rfl
  · rw [if_neg he,
      show tokenize s = splitSpace (normalizeText s) from by
        simp only [tokenize, he, Bool.false_eq_true, if_false]]
    exact splitSpace_length _

theorem tokenize_length_le_append (u v : List Char) :
    (tokenize u).length ≤ (tokenize (u ++ v)).length := by
  rw [tokenize_eq_runs, tokenize_eq_runs, List.map_append, List.map_append]
  exact nwRuns_length_le_append _ _

theorem startsWithL_append {p : List Char} :
    ∀ {s : List Char}, startsWithL s p = true → ∃ t, s = p ++ t := by
  induction p with
  | nil => intro s _; exact ⟨s, rfl⟩
  | cons c ps ih =>
    intro s h
    rcases s with _ | ⟨a, as⟩
    · simp [startsWithL] at h
    · simp only [startsWithL, Bool.and_eq_true, beq_iff_eq] at h
      obtain ⟨rfl, h2⟩ := h
      obtain ⟨t, ht⟩ := ih h2
      exact ⟨t, by rw [List.cons_append, ← ht]⟩

theorem includesL_nil_eq {nd : List Char} (hs : ¬startsWithL [] nd = true) :
    includesL [] nd = false := by
  conv_lhs => rw [includesL]
  rw [if_neg hs]

theorem includesL_cons_of_not_starts {a : Char} {as nd : List Char}
    (hs : ¬startsWithL (a :: as) nd = true) :
    includesL (a :: as) nd = includesL as nd := by
  conv_lhs => rw [includesL]
  rw [if_neg hs]

theorem includesL_append {nd : List Char} :
    ∀ {hay : List Char}, includesL hay nd = true → ∃ x y, hay = x ++ nd ++ y := by
  intro hay
  induction hay with
  | nil =>
    intro h
    by_cases hs : startsWithL [] nd = true
    · obtain ⟨t, ht⟩ := startsWithL_append hs
      exact ⟨[], t, by rw [List.nil_append, ← ht]⟩
    · rw [includesL_nil_eq hs] at h
      cases h
  | cons a as ih =>
    intro h
    by_cases hs : startsWithL (a :: as) nd = true
    · obtain ⟨t, ht⟩ := startsWithL_append hs
      exact ⟨[], t, by rw [List.nil_append, ← ht]⟩
    · rw [includesL_cons_of_not_starts hs] at h
      obtain ⟨x, y, hxy⟩ := ih h
      exact ⟨a :: x, y, by rw [hxy]; simp⟩

theorem containsNormalized_spec {a b : List Char} (h : containsNormalized a b = true) :
    normalizeText a ≠ [] ∧ normalizeText b ≠ [] ∧
      includesL (normalizeText a) (normalizeText b) = true := by
  simp only [containsNormalized] at h
  cases h1 : (normalizeText a).isEmpty with
  | true =>
    rw [h1] at h
    simp at h
  | false =>
    cases h2 : (normalizeText b).isEmpty with
    | true =>
      rw [h1, h2] at h
      simp at h
    | false =>
      rw [h1, h2] at h
      simp only [Bool.or_self, Bool.false_or, if_false] at h
      refine ⟨?_, ?_, h⟩
      · intro hx; rw [hx] at h1; cases h1
      · intro hx; rw [hx] at h2; cases h2

theorem containsNormalized_intro {x y : List Char} (hx : normalizeText x ≠ [])
    (hy : normalizeText y ≠ []) (h : includesL (normalizeText x) (normalizeText y) = true) :
    containsNormalized x y = true := by
  simp only [containsNormalized, isEmpty_false_of_ne hx, isEmpty_false_of_ne hy]
  simpa using h

theorem mergeTranscript_eq (prev next : List Char) :
    mergeTranscript prev next =
      if (trimL prev).isEmpty then trimL next
      else if (trimL next).isEmpty then trimL prev
      else if trimL prev = trimL next then trimL prev
      else if containsNormalized (trimL prev) (trimL next) then trimL prev
      else if containsNormalized (trimL next) (trimL prev) then trimL next
      else if startsWithL (trimL next) (trimL prev) then trimL next
      else if startsWithL (trimL prev) (trimL next) then trimL prev
      else if findOverlapC ((trimL prev).map lowChar) ((trimL next).map lowChar)
          (min ((trimL prev).map lowChar).length ((trimL next).map lowChar).length) > 0
        then trimL prev ++ (trimL next).drop (findOverlapC ((trimL prev).map lowChar)
          ((trimL next).map lowChar)
          (min ((trimL prev).map lowChar).length ((trimL next).map lowChar).length))
      else trimL prev ++ ' ' :: trimL next := rfl

/-- C5 counterexample: the claim quantifies over every `a`, `b` with
`normalize(b)` a substring of `normalize(a)`, but a fragment that normalizes
to the empty string (here `"!!!"`) vacuously satisfies the premise and is
NOT absorbed: `containsNormalized` demands both normalized strings
non-empty, so the merge falls through to the no-overlap concatenation. -/
theorem C5_counterexample :
    includesL (normalizeText (str "x")) (normalizeText (str "!!!")) = true ∧
    mergeTranscript (str "x") (str "!!!") = str "x !!!" ∧
    str "x !!!" ≠ str "x" := by
  decide

/-- C5 (amended): for every `a` with no leading/trailing whitespace and
every `b` whose normalization is non-empty and a substring of
`normalize(a)`, `mergeTranscript(a, b) == a`. -/
theorem C5_containment_absorption (a b : List Char)
    (htrim : trimL a = a) (hbne : normalizeText b ≠ [])
    (hsub : includesL (normalizeText a) (normalizeText b) = true) :
    mergeTranscript a b = a := by
  have hane : normalizeText a ≠ [] := by
    intro hx
    rw [hx] at hsub
    rcases hb : normalizeText b with _ | ⟨c, nb⟩
    · exact hbne hb
    · rw [hb] at hsub
      rw [includesL_nil_eq (by rw [show startsWithL [] (c :: nb) = false from rfl]; simp)]
        at hsub
      cases hsub
  have haneL : a ≠ [] := by
    intro hx
    rw [hx] at hane
    exact hane rfl
  rw [mergeTranscript_eq, htrim]
  rw [if_neg (show ¬(a.isEmpty = true) from fun hx => haneL (List.isEmpty_iff.mp hx))]
  have hbne2 : ¬((trimL b).isEmpty = true) := by
    intro hx
    have h2 := List.isEmpty_iff.mp hx
    rw [← normalizeText_trimL b, h2] at hbne
    exact hbne rfl
  rw [if_neg hbne2]
  by_cases heq : a = trimL b
  · rw [if_pos heq]
  · rw [if_neg heq]
    have hcont : containsNormalized a (trimL b) = true := by
      apply containsNormalized_intro hane
      · rw [normalizeText_trimL b]
        exact hbne
      · rw [normalizeText_trimL b]
        exact hsub
    rw [if_pos hcont]

/-- C5 witness: the amended statement at `a = "hello world"`,
`b = "WORLD!"` (normalizes to `"world"`, contained in `"hello world"`). -/
theorem C5_witness : mergeTranscript (str "hello world") (str "WORLD!") = str "hello world" :=
  C5_containment_absorption (str "hello world") (str "WORLD!")
    (by decide) (by decide) (by decide)

/-- C6: for all strings `a`, `b`, the token count of `mergeTranscript a b`
is at least the token count of `a` — a merge never shrinks the committed
transcript.  Every branch of the merge returns `a` (trimmed), a superstring
of it, or `b` when `a`'s content is contained in `b`'s. -/
theorem C6_merge_growth (prev next : List Char) :
    (tokenize prev).length ≤ (tokenize (mergeTranscript prev next)).length := by
  have htp := tokenize_trimL prev
  rw [mergeTranscript_eq]
  by_cases h1 : (trimL prev).isEmpty = true
  · rw [if_pos h1]
    have hnil : trimL prev = [] := List.isEmpty_iff.mp h1
    rw [← htp, hnil]
    exact Nat.zero_le _
  · rw [if_neg h1]
    by_cases h2 : (trimL next).isEmpty = true
    · rw [if_pos h2, htp]
    · rw [if_neg h2]
      by_cases h3 : trimL prev = trimL next
      · rw [if_pos h3, htp]
      · rw [if_neg h3]
        by_cases h4 : containsNormalized (trimL prev) (trimL next) = true
        · rw [if_pos h4, htp]
        · rw [if_neg h4]
          by_cases h5 : containsNormalized (trimL next) (trimL prev) = true
          · rw [if_pos h5]
            obtain ⟨hna, hnb, hinc⟩ := containsNormalized_spec h5
            obtain ⟨x, y, hxy⟩ := includesL_append hinc
            rw [← htp, tokenize_length, tokenize_length,
              if_neg (show ¬((normalizeText (trimL prev)).isEmpty = true) from
                fun hx => hnb (List.isEmpty_iff.mp hx)),
              if_neg (show ¬((normalizeText (trimL next)).isEmpty = true) from
                fun hx => hna (List.isEmpty_iff.mp hx)),
              hxy]
            simp only [List.count_append]
            omega
          · rw [if_neg h5]
            by_cases h6 : startsWithL (trimL next) (trimL prev) = true
            · rw [if_pos h6]
              obtain ⟨t, ht⟩ := startsWithL_append h6
              rw [← htp, ht]
              exact tokenize_length_le_append _ _
            · rw [if_neg h6]
              by_cases h7 : startsWithL (trimL prev) (trimL next) = true
              · rw [if_pos h7, htp]
              · rw [if_neg h7]
                by_cases h8 : findOverlapC ((trimL prev).map lowChar)
                    ((trimL next).map lowChar)
                    (min ((trimL prev).map lowChar).length
                      ((trimL next).map lowChar).length) > 0
                · rw [if_pos h8, ← htp]
                  exact tokenize_length_le_append _ _
                · rw [if_neg h8, ← htp]
                  exact tokenize_length_le_append _ _

end VocalLens
